import Mathlib

/-!
Verification of the XML formatter of the comrak repository (file src/xml.rs).

The Rust source is shallowly embedded below.  Byte sequences are modelled as
lists of natural numbers (each entry a byte value), the output sink as an
accumulating byte list inside the formatter state, and the iterative
work-stack traversal of XmlFormatter::format as a fuel-indexed loop whose
fuel is proved sufficient (the loop body is the function stepOnce; the fuel
bound stackWeight strictly decreases at every iteration, so the fuelled loop
never runs out and is extensionally the Rust while-let loop).

Types that xml.rs consumes from sibling modules that are not part of the
sources under inspection (nodes.rs, parser options, plugins) are modelled
from the specification, with only the fields xml.rs reads.
-/

namespace Comrak

/-- UTF-8 bytes of an ASCII string literal, used to transcribe the byte-string
literals of the Rust source. -/
def bytes (s : String) : List Nat := s.data.map Char.toNat

/-- Decimal digit bytes of a natural number, as produced by Display formatting
of the integer fields interpolated by the Rust source. -/
def natBytes (k : Nat) : List Nat := bytes (toString k)

/-- Modelled from the spec: the configuration is "a read-only options value
exposing at minimum a sourcepos: bool flag" (the only option field xml.rs
reads, as options.render.sourcepos). -/
structure ComrakRenderOptions where
  sourcepos : Bool

/-- Modelled from the spec: wrapper carrying the render options, mirroring the
options.render access path of the source. -/
structure ComrakOptions where
  render : ComrakRenderOptions

/-- Modelled from the spec: "an optional plugins registry (currently a no-op
collaborator — accepted but unused for the rendering decisions described
above)".  One optional field stands in for the registry contents so that two
distinct registry values exist. -/
structure ComrakPlugins where
  codefenceSyntaxHighlighter : Option Nat
deriving DecidableEq

/-- Modelled from the spec: the default (empty) plugin registry used by
format_document. -/
def ComrakPlugins.default : ComrakPlugins := ⟨none⟩

/-- Modelled from the spec: bullet or ordered list, the two list types the
renderer distinguishes. -/
inductive ListType where
  | bullet
  | ordered
deriving DecidableEq

/-- Modelled from the spec: the ordered-list delimiter kinds. -/
inductive ListDelimType where
  | period
  | paren
deriving DecidableEq

/-- Modelled from the spec: XML name of a list delimiter, as in the scenario
output delim="paren". -/
def ListDelimType.xml_name : ListDelimType → String
  | .period => "period"
  | .paren => "paren"

/-- Modelled from the spec: the NodeList payload fields xml.rs reads
(list-type, tight, start, delimiter). -/
structure NodeList where
  list_type : ListType
  start : Nat
  delimiter : ListDelimType
  tight : Bool
deriving DecidableEq

/-- Modelled from the spec: the NodeLink payload fields xml.rs reads
(url and title byte strings). -/
structure NodeLink where
  url : List Nat
  title : List Nat
deriving DecidableEq

/-- Modelled from the spec: the tagged union of node-type variants, each with
the payload fields that xml.rs destructures (literal byte sequences for
Text/Code/HtmlBlock/HtmlInline, info and literal for CodeBlock, level for
Heading, url and title for Link/Image, the NodeList payload for List). -/
inductive NodeValue where
  | document
  | frontMatter (content : List Nat)
  | blockQuote
  | list (nl : NodeList)
  | item
  | descriptionList
  | descriptionItem
  | descriptionTerm
  | descriptionDetails
  | heading (level : Nat)
  | codeBlock (info : List Nat) (literal : List Nat)
  | htmlBlock (literal : List Nat)
  | paragraph
  | thematicBreak
  | lineBreak
  | softBreak
  | code (literal : List Nat)
  | htmlInline (literal : List Nat)
  | emph
  | strong
  | strikethrough
  | superscript
  | link (nl : NodeLink)
  | image (nl : NodeLink)
  | table
  | tableRow (header : Bool)
  | tableCell
  | footnoteDefinition (name : List Nat)
  | footnoteReference (name : List Nat)
  | taskItem (checked : Bool)
  | text (literal : List Nat)
deriving DecidableEq

/-- Modelled from the spec: the fixed one-to-one mapping from node variant to
XML tag name ("e.g. Document→document, ThematicBreak→thematic_break,
CodeBlock→code_block", scenario tags paragraph, text, list, and snake-case
names for the remaining variants). -/
def NodeValue.xml_node_name : NodeValue → String
  | .document => "document"
  | .frontMatter _ => "frontmatter"
  | .blockQuote => "block_quote"
  | .list _ => "list"
  | .item => "item"
  | .descriptionList => "description_list"
  | .descriptionItem => "description_item"
  | .descriptionTerm => "description_term"
  | .descriptionDetails => "description_details"
  | .heading _ => "heading"
  | .codeBlock _ _ => "code_block"
  | .htmlBlock _ => "html_block"
  | .paragraph => "paragraph"
  | .thematicBreak => "thematic_break"
  | .lineBreak => "linebreak"
  | .softBreak => "softbreak"
  | .code _ => "code"
  | .htmlInline _ => "html_inline"
  | .emph => "emph"
  | .strong => "strong"
  | .strikethrough => "strikethrough"
  | .superscript => "superscript"
  | .link _ => "link"
  | .image _ => "image"
  | .table => "table"
  | .tableRow _ => "table_row"
  | .tableCell => "table_cell"
  | .footnoteDefinition _ => "footnote_definition"
  | .footnoteReference _ => "footnote_reference"
  | .taskItem _ => "taskitem"
  | .text _ => "text"

/-- Modelled from the spec: a tree node carries a node-value, the (possibly
zero) source-position span, and the ordered list of children. -/
inductive Node where
  | mk (value : NodeValue) (startLine startColumn endLine endColumn : Nat)
      (children : List Node)

/-- Value field of a node. -/
def Node.value : Node → NodeValue
  | .mk v _ _ _ _ _ => v

/-- Start line of a node's source-position span. -/
def Node.startLine : Node → Nat
  | .mk _ sl _ _ _ _ => sl

/-- Start column of a node's source-position span. -/
def Node.startColumn : Node → Nat
  | .mk _ _ sc _ _ _ => sc

/-- End line of a node's source-position span. -/
def Node.endLine : Node → Nat
  | .mk _ _ _ el _ _ => el

/-- End column of a node's source-position span. -/
def Node.endColumn : Node → Nat
  | .mk _ _ _ _ ec _ => ec

/-- Children list of a node; node.first_child().is_some() in the source is
!children.isEmpty here. -/
def Node.children : Node → List Node
  | .mk _ _ _ _ _ cs => cs

mutual
/-- Number of nodes in a subtree (used as the traversal termination measure). -/
def Node.size : Node → Nat
  | .mk _ _ _ _ _ cs => 1 + Node.sizeList cs
/-- Total number of nodes in a forest. -/
def Node.sizeList : List Node → Nat
  | [] => 0
  | c :: cs => Node.size c + Node.sizeList cs
end

/-- State of the XmlFormatter struct of xml.rs: the current indent, the output
sink (modelled as the byte list written so far), and the plugins registry.
The options are passed to the functions below as an explicit argument (the
Rust struct holds them as an immutable reference). -/
structure XmlFormatter where
  indent : Nat
  output : List Nat
  plugins : ComrakPlugins

/-- Lookup table of XmlFormatter::escape: all bytes are XML-safe except the
four reserved bytes of b"&<>\x22". -/
def XML_SAFE (b : Nat) : Bool := !(b == 38 || b == 60 || b == 62 || b == 34)

/-- Entity written by XmlFormatter::escape for a reserved byte (the inner
match; its catch-all arm is unreachable! in the source and is mapped to the
empty sequence here). -/
def escEntity (b : Nat) : List Nat :=
  if b == 34 then bytes "&quot;"
  else if b == 38 then bytes "&amp;"
  else if b == 60 then bytes "&lt;"
  else if b == 62 then bytes "&gt;"
  else []

/-- Loop of XmlFormatter::escape: scan the enumerated buffer; on an unsafe
byte flush the pending safe run buffer[offset..i] and the entity, and restart
the run past the byte; after the loop flush buffer[offset..]. The first
argument is the whole buffer, the list argument is its yet-unscanned tail at
index i, and out is the output written so far. -/
def escapeLoop (buffer : List Nat) : List Nat → Nat → Nat → List Nat → List Nat
  | [], _, offset, out => out ++ buffer.drop offset
  | b :: rest, i, offset, out =>
      if !XML_SAFE b then
        escapeLoop buffer rest (i + 1) (i + 1)
          (out ++ (buffer.drop offset).take (i - offset) ++ escEntity b)
      else
        escapeLoop buffer rest (i + 1) offset out

/-- XmlFormatter::escape as a pure function from the input buffer to the byte
sequence it writes to the output sink. -/
def escape (buffer : List Nat) : List Nat := escapeLoop buffer buffer 0 0 []

/-- Per-byte escaping map: each reserved byte becomes its named entity and
every other byte is copied unmodified (the byte-replacement description of
the specification, proved below to agree with escape). -/
def escapeByte (b : Nat) : List Nat :=
  if b == 38 then bytes "&amp;"
  else if b == 60 then bytes "&lt;"
  else if b == 62 then bytes "&gt;"
  else if b == 34 then bytes "&quot;"
  else [b]

/-- Modelled from the claim under verification: the inverse scanner that
replaces each occurrence of the four named entities in a byte sequence by the
corresponding reserved byte, scanning left to right, copying every other byte.
(&amp; is the byte sequence 38,97,109,112,59; &lt; is 38,108,116,59; &gt; is
38,103,116,59; &quot; is 38,113,117,111,116,59.) -/
def unescape : List Nat → List Nat
  | [] => []
  | b :: rest =>
    if b = 38 then
      if rest.take 4 = [97, 109, 112, 59] then 38 :: unescape (rest.drop 4)
      else if rest.take 3 = [108, 116, 59] then 60 :: unescape (rest.drop 3)
      else if rest.take 3 = [103, 116, 59] then 62 :: unescape (rest.drop 3)
      else if rest.take 5 = [113, 117, 111, 116, 59] then 34 :: unescape (rest.drop 5)
      else b :: unescape rest
    else b :: unescape rest
termination_by l => l.length
decreasing_by
  all_goals simp [List.length_drop]
  all_goals omega

/-- Sourcepos attribute text: sourcepos="startLine:startCol-endLine:endCol",
as interpolated by format_node. -/
def sourcepos_attr (n : Node) : List Nat :=
  bytes " sourcepos=\"" ++ natBytes n.startLine ++ bytes ":" ++
    natBytes n.startColumn ++ bytes "-" ++ natBytes n.endLine ++ bytes ":" ++
    natBytes n.endColumn ++ bytes "\""

/-- XmlFormatter::format_node.  On entering: indent, write <name, the optional
sourcepos attribute, then the per-variant attributes (with the literal
variants writing xml:space="preserve", their escaped payload and the closing
tag inline, setting was_literal); then bump the indent if the node has a
child, else write the self-closing slash unless the node was literal; then
write the newline.  On leaving: only for a node with a child, unwind the
indent and write the closing tag line.  Always returns false as the new
plain flag.  All writes are modelled as appends to the output field, in
write order. -/
def format_node (opts : ComrakOptions) (st : XmlFormatter) (n : Node)
    (entering : Bool) : XmlFormatter × Bool :=
  if entering then
    let name := bytes n.value.xml_node_name
    let sp :=
      if opts.render.sourcepos && (n.startLine != 0) then sourcepos_attr n
      else []
    let av : List Nat × Bool :=
      match n.value with
      | .document => (bytes " xmlns=\"http://commonmark.org/xml/1.0\"", false)
      | .text l | .code l | .htmlBlock l | .htmlInline l =>
          (bytes " xml:space=\"preserve\">" ++ escape l ++ bytes "</" ++ name,
            true)
      | .list nl =>
          ((if nl.list_type = ListType.bullet then bytes " type=\"bullet\""
            else
              bytes " type=\"ordered\" start=\"" ++ natBytes nl.start ++
                bytes "\" delim=\"" ++ bytes nl.delimiter.xml_name ++
                bytes "\"") ++
            (bytes " tight=\"" ++ bytes (toString nl.tight) ++ bytes "\""),
            false)
      | .frontMatter _ => ([], false)
      | .blockQuote => ([], false)
      | .item => ([], false)
      | .descriptionList => ([], false)
      | .descriptionItem => ([], false)
      | .descriptionTerm => ([], false)
      | .descriptionDetails => ([], false)
      | .heading lvl => (bytes " level=\"" ++ natBytes lvl ++ bytes "\"", false)
      | .codeBlock info lit =>
          ((if !info.isEmpty then bytes " info=\"" ++ info ++ bytes "\""
            else []) ++
            (bytes " xml:space=\"preserve\">" ++ escape lit ++ bytes "</" ++
              name),
            true)
      | .thematicBreak => ([], false)
      | .paragraph => ([], false)
      | .lineBreak => ([], false)
      | .softBreak => ([], false)
      | .strong => ([], false)
      | .emph => ([], false)
      | .strikethrough => ([], false)
      | .superscript => ([], false)
      | .link nl | .image nl =>
          (bytes " destination=\"" ++ escape nl.url ++ bytes "\" title=\"" ++
            escape nl.title ++ bytes "\"", false)
      | .table => ([], false)
      | .tableRow _ => ([], false)
      | .tableCell => ([], false)
      | .footnoteDefinition _ => ([], false)
      | .footnoteReference _ => ([], false)
      | .taskItem _ => ([], false)
    let withChild := !n.children.isEmpty
    ({ st with
        indent := if withChild then st.indent + 2 else st.indent,
        output := st.output ++ List.replicate st.indent 32 ++ bytes "<" ++
          name ++ sp ++ av.1 ++
          (if withChild then [] else if !av.2 then bytes " /" else []) ++
          bytes ">\n" },
      false)
  else
    if !n.children.isEmpty then
      ({ st with
          indent := st.indent - 2,
          output := st.output ++ List.replicate (st.indent - 2) 32 ++
            bytes "</" ++ bytes n.value.xml_node_name ++ bytes ">\n" },
        false)
    else (st, false)

/-- Traversal phase of the work stack of XmlFormatter::format. -/
inductive Phase where
  | pre
  | post
deriving DecidableEq

/-- Entry of the explicit work stack: the (node, plain, phase) triple. -/
structure StackEntry where
  node : Node
  plain : Bool
  phase : Phase

/-- Body of the while-let loop of XmlFormatter::format for one popped entry:
returns the new formatter state and the entries pushed for this entry (in
pop order; they sit on top of the remaining stack).  A Pre entry in plain
mode writes the escaped literal of Text/Code/HtmlInline, a space for
LineBreak/SoftBreak, nothing otherwise, and pushes the children (in document
order, matching the reverse-order pushes of the source) with the same plain
flag; a Pre entry otherwise runs format_node entering, pushes the children
with the returned plain flag, above the deferred Post entry for the node; a
Post entry runs format_node leaving and pushes nothing. -/
def stepOnce (opts : ComrakOptions) (st : XmlFormatter) (e : StackEntry) :
    XmlFormatter × List StackEntry :=
  match e.phase with
  | Phase.pre =>
    if e.plain then
      let st :=
        match e.node.value with
        | .text l | .code l | .htmlInline l =>
            { st with output := st.output ++ escape l }
        | .lineBreak | .softBreak =>
            { st with output := st.output ++ bytes " " }
        | _ => st
      (st, e.node.children.map fun c => ⟨c, e.plain, Phase.pre⟩)
    else
      let r := format_node opts st e.node true
      (r.1,
        e.node.children.map (fun c => ⟨c, r.2, Phase.pre⟩) ++
          [⟨e.node, false, Phase.post⟩])
  | Phase.post => ((format_node opts st e.node false).1, [])

/-- Termination measure of one stack entry: twice the subtree size for a Pre
entry, one for a Post entry. -/
def entryWeight : StackEntry → Nat
  | ⟨n, _, Phase.pre⟩ => 2 * n.size
  | ⟨_, _, Phase.post⟩ => 1

/-- Termination measure of a work stack. -/
def stackWeight : List StackEntry → Nat
  | [] => 0
  | e :: s => entryWeight e + stackWeight s

/-- Fuel-indexed runner of the while-let loop of XmlFormatter::format: pop the
top entry, run stepOnce, push its entries, repeat until the stack is empty.
The fuel only bounds the iteration count; stackWeight fuel is proved
sufficient below, so the zero-fuel clause is never reached from runStack. -/
def runFuel (opts : ComrakOptions) : Nat → XmlFormatter → List StackEntry →
    XmlFormatter
  | _, st, [] => st
  | 0, st, _ :: _ => st
  | f + 1, st, e :: rest =>
      runFuel opts f (stepOnce opts st e).1 ((stepOnce opts st e).2 ++ rest)

/-- Run of the traversal loop on a stack, with the proven-sufficient fuel. -/
def runStack (opts : ComrakOptions) (st : XmlFormatter)
    (stack : List StackEntry) : XmlFormatter :=
  runFuel opts (stackWeight stack) st stack

/-- XmlFormatter::format: run the work-stack loop started with the single
entry (node, plain, Pre). -/
def XmlFormatter.format (opts : ComrakOptions) (st : XmlFormatter) (node : Node)
    (plain : Bool) : XmlFormatter :=
  runStack opts st [⟨node, plain, Phase.pre⟩]

/-- Prolog written by format_document_with_plugins before the traversal: the
XML declaration line and the DOCTYPE line. -/
def xmlProlog : List Nat :=
  bytes "<?xml version=\"1.0\" encoding=\"UTF-8\"?>\n" ++
    bytes "<!DOCTYPE document SYSTEM \"CommonMark.dtd\">\n"

/-- format_document_with_plugins: write the prolog, then run the formatter
(indent 0) on the root with plain false; the result is the full byte
sequence written to the output sink. -/
def format_document_with_plugins (root : Node) (options : ComrakOptions)
    (plugins : ComrakPlugins) : List Nat :=
  (XmlFormatter.format options
    { indent := 0, output := xmlProlog, plugins := plugins } root false).output

/-- format_document: format_document_with_plugins with the default plugins. -/
def format_document (root : Node) (options : ComrakOptions) : List Nat :=
  format_document_with_plugins root options ComrakPlugins.default

/-- Pending indent debt of one stack entry: one unit for the deferred Post
entry of a node with at least one child, zero otherwise. -/
def entryDebt : StackEntry → Nat
  | ⟨n, _, Phase.post⟩ => if n.children.isEmpty then 0 else 1
  | ⟨_, _, Phase.pre⟩ => 0

/-- Pending indent debt of a work stack. -/
def stackDebt : List StackEntry → Nat
  | [] => 0
  | e :: s => entryDebt e + stackDebt s

/-- One iteration of the while-let loop of XmlFormatter::format: pop the top
entry and push what stepOnce returns. -/
def StepRel (opts : ComrakOptions)
    (c1 c2 : XmlFormatter × List StackEntry) : Prop :=
  ∃ st e rest, c1 = (st, e :: rest) ∧
    c2 = ((stepOnce opts st e).1, (stepOnce opts st e).2 ++ rest)

/-- Reachability in any number of loop iterations. -/
def Reach (opts : ComrakOptions) :
    XmlFormatter × List StackEntry → XmlFormatter × List StackEntry → Prop :=
  Relation.ReflTransGen (StepRel opts)

/-- Classification of the literal node variants (Text, Code, HtmlBlock,
HtmlInline, CodeBlock) together with the literal payload they render; none
for every other variant. -/
def literalOf : NodeValue → Option (List Nat)
  | .text l | .code l | .htmlBlock l | .htmlInline l => some l
  | .codeBlock _ l => some l
  | _ => none

/-- Node variants for which the plain-mode Pre visit writes nothing (every
variant other than Text, Code, HtmlInline, LineBreak and SoftBreak). -/
def plainSilent : NodeValue → Bool
  | .text _ | .code _ | .htmlInline _ => false
  | .lineBreak | .softBreak => false
  | _ => true

/-! Lemmas about the escaper. -/

theorem escEntity_eq_escapeByte (b : Nat) (h : XML_SAFE b = false) :
    escEntity b = escapeByte b := by
  simp only [XML_SAFE, Bool.not_eq_false', Bool.or_eq_true, beq_iff_eq] at h
  rcases h with ((h | h) | h) | h <;> subst h <;> rfl

theorem escapeByte_safe (b : Nat) (h : XML_SAFE b = true) : escapeByte b = [b] := by
  simp only [XML_SAFE, Bool.not_eq_eq_eq_not, Bool.not_true, Bool.or_eq_false_iff,
    beq_eq_false_iff_ne, ne_eq] at h
  obtain ⟨⟨⟨h1, h2⟩, h3⟩, h4⟩ := h
  simp [escapeByte, h1, h2, h3, h4]

theorem escapeLoop_eq (buffer : List Nat) :
    ∀ (l : List Nat) (i offset : Nat) (out : List Nat),
      buffer.drop i = l → offset ≤ i →
      escapeLoop buffer l i offset out =
        out ++ (buffer.drop offset).take (i - offset) ++ (l.map escapeByte).flatten := by
  intro l
  induction l with
  | nil =>
    intro i offset out hdrop hoff
    have hlen : buffer.length ≤ i := List.drop_eq_nil_iff.mp hdrop
    have htake : (buffer.drop offset).take (i - offset) = buffer.drop offset :=
      List.take_of_length_le (by rw [List.length_drop]; omega)
    simp [escapeLoop, htake]
  | cons b rest ih =>
    intro i offset out hdrop hoff
    have hb : buffer[i]? = some b := by
      have h0 := List.getElem?_drop buffer i 0
      rw [hdrop] at h0
      simpa using h0.symm
    have hdrop1 : buffer.drop (i + 1) = rest := by
      have h1 := List.drop_drop 1 i buffer
      rw [hdrop] at h1
      simpa using h1.symm
    by_cases hs : XML_SAFE b
    · have hstep : escapeLoop buffer (b :: rest) i offset out =
          escapeLoop buffer rest (i + 1) offset out := by
        simp [escapeLoop, hs]
      rw [hstep, ih (i + 1) offset out hdrop1 (by omega)]
      have htake : (buffer.drop offset).take (i + 1 - offset) =
          (buffer.drop offset).take (i - offset) ++ [b] := by
        have he : i + 1 - offset = (i - offset) + 1 := by omega
        rw [he, List.take_succ, List.getElem?_drop]
        have he2 : offset + (i - offset) = i := by omega
        rw [he2, hb]
        rfl
      rw [htake]
      simp [escapeByte_safe b hs, List.append_assoc]
    · have hs' : XML_SAFE b = false := by simpa using hs
      have hstep : escapeLoop buffer (b :: rest) i offset out =
          escapeLoop buffer rest (i + 1) (i + 1)
            (out ++ (buffer.drop offset).take (i - offset) ++ escEntity b) := by
        simp [escapeLoop, hs']
      rw [hstep, ih (i + 1) (i + 1) _ hdrop1 (le_refl _)]
      rw [escEntity_eq_escapeByte b hs']
      simp [List.append_assoc]

theorem escape_eq (buf : List Nat) : escape buf = (buf.map escapeByte).flatten := by
  have h := escapeLoop_eq buf buf 0 0 [] (by simp) (le_refl 0)
  simpa using h

theorem flatten_map_escapeByte_safe (buf : List Nat)
    (h : ∀ b ∈ buf, XML_SAFE b = true) : (buf.map escapeByte).flatten = buf := by
  induction buf with
  | nil => simp
  | cons b rest ih =>
    simp only [List.map_cons, List.flatten_cons]
    rw [escapeByte_safe b (h b (by simp)), ih fun x hx => h x (by simp [hx])]
    rfl

/-- Escaping distributes as the per-byte replacement map: every occurrence of
a reserved byte becomes its entity and all other bytes are copied; an input
with no reserved byte is unchanged; an input of only reserved bytes becomes
exactly the concatenation of the corresponding entities in the same
positions. -/
theorem claim_C1 :
    (∀ buf : List Nat, escape buf = (buf.map escapeByte).flatten) ∧
    (∀ buf : List Nat, (∀ b ∈ buf, XML_SAFE b = true) → escape buf = buf) ∧
    (∀ buf : List Nat, (∀ b ∈ buf, XML_SAFE b = false) →
      escape buf = (buf.map escEntity).flatten) := by
  refine ⟨escape_eq, ?_, ?_⟩
  · intro buf h
    rw [escape_eq, flatten_map_escapeByte_safe buf h]
  · intro buf h
    rw [escape_eq]
    congr 1
    exact List.map_congr_left fun b hb => (escEntity_eq_escapeByte b (h b hb)).symm

/-- Witness for claim_C1: the safe-input clause at "Hi" and the all-reserved
clause at the four reserved bytes. -/
theorem claim_C1_witness :
    escape (bytes "Hi") = bytes "Hi" ∧
    escape [38, 60, 62, 34] = ([38, 60, 62, 34].map escEntity).flatten := by
  exact ⟨claim_C1.2.1 (bytes "Hi") (by decide), claim_C1.2.2 [38, 60, 62, 34] (by decide)⟩

/-- Round trip: replacing the four entities in the escaper's output by their
reserved bytes, left to right, recovers the input exactly. -/
theorem claim_C10 (buf : List Nat) : unescape (escape buf) = buf := by
  rw [escape_eq]
  induction buf with
  | nil => simp [unescape]
  | cons b rest ih =>
    simp only [List.map_cons, List.flatten_cons]
    by_cases h38 : b = 38
    · subst h38
      have hb : escapeByte 38 = [38, 97, 109, 112, 59] := rfl
      rw [hb, List.cons_append, List.cons_append, List.cons_append, List.cons_append,
        List.cons_append, List.nil_append, unescape]
      simp [ih]
    · by_cases h60 : b = 60
      · subst h60
        have hb : escapeByte 60 = [38, 108, 116, 59] := rfl
        rw [hb, List.cons_append, List.cons_append, List.cons_append, List.cons_append,
          List.nil_append, unescape]
        simp [ih]
      · by_cases h62 : b = 62
        · subst h62
          have hb : escapeByte 62 = [38, 103, 116, 59] := rfl
          rw [hb, List.cons_append, List.cons_append, List.cons_append, List.cons_append,
            List.nil_append, unescape]
          simp [ih]
        · by_cases h34 : b = 34
          · subst h34
            have hb : escapeByte 34 = [38, 113, 117, 111, 116, 59] := rfl
            rw [hb, List.cons_append, List.cons_append, List.cons_append, List.cons_append,
              List.cons_append, List.cons_append, List.nil_append, unescape]
            simp [ih]
          · have hb : escapeByte b = [b] := by
              simp [escapeByte, h38, h60, h62, h34]
            rw [hb, List.cons_append, List.nil_append, unescape]
            simp [h38, ih]

/-! Lemmas about format_node. -/

theorem format_node_snd (opts : ComrakOptions) (st : XmlFormatter) (n : Node)
    (e : Bool) : (format_node opts st n e).2 = false := by
  cases e with
  | true => rfl
  | false =>
    unfold format_node
    split <;> rename_i h
    · rfl
    · split <;> rfl

theorem format_node_enter_indent_empty (opts : ComrakOptions) (st : XmlFormatter)
    (n : Node) (h : n.children = []) :
    (format_node opts st n true).1.indent = st.indent := by
  simp [format_node, h]

theorem format_node_enter_indent_cons (opts : ComrakOptions) (st : XmlFormatter)
    (n : Node) (h : n.children ≠ []) :
    (format_node opts st n true).1.indent = st.indent + 2 := by
  simp [format_node, h]

theorem format_node_leave_empty (opts : ComrakOptions) (st : XmlFormatter)
    (n : Node) (h : n.children = []) : format_node opts st n false = (st, false) := by
  simp [format_node, h]

theorem format_node_leave (opts : ComrakOptions) (st : XmlFormatter) (n : Node)
    (h : n.children ≠ []) :
    format_node opts st n false =
      ({ st with
          indent := st.indent - 2,
          output := st.output ++ List.replicate (st.indent - 2) 32 ++
            bytes "</" ++ bytes n.value.xml_node_name ++ bytes ">\n" }, false) := by
  simp [format_node, h]

theorem format_node_factor (opts : ComrakOptions) (i : Nat) (o : List Nat)
    (p q : ComrakPlugins) (n : Node) (e : Bool) :
    format_node opts ⟨i, o, p⟩ n e =
      (⟨(format_node opts ⟨i, [], q⟩ n e).1.indent,
        o ++ (format_node opts ⟨i, [], q⟩ n e).1.output, p⟩, false) := by
  cases e with
  | false =>
    by_cases h : n.children = [] <;> simp [format_node, h]
  | true =>
    simp [format_node, List.append_assoc]

theorem format_node_output_mono (opts : ComrakOptions) (st : XmlFormatter)
    (n : Node) (e : Bool) :
    ∃ d, (format_node opts st n e).1.output = st.output ++ d := by
  rcases st with ⟨i, o, p⟩
  exact ⟨(format_node opts ⟨i, [], p⟩ n e).1.output,
    by rw [format_node_factor opts i o p p n e]⟩

theorem format_node_plugins (opts : ComrakOptions) (st : XmlFormatter) (n : Node)
    (e : Bool) : (format_node opts st n e).1.plugins = st.plugins := by
  rcases st with ⟨i, o, p⟩
  rw [format_node_factor opts i o p p n e]

/-! Size and termination-measure lemmas. -/

theorem size_mk (v : NodeValue) (a b c d : Nat) (cs : List Node) :
    Node.size (.mk v a b c d cs) = 1 + Node.sizeList cs := rfl

theorem sizeList_cons (c : Node) (cs : List Node) :
    Node.sizeList (c :: cs) = c.size + Node.sizeList cs := rfl

theorem size_pos (n : Node) : 0 < n.size := by
  rcases n with ⟨v, a, b, c, d, cs⟩
  rw [size_mk]
  omega

theorem entryWeight_pos (e : StackEntry) : 0 < entryWeight e := by
  rcases e with ⟨n, pl, ph⟩
  cases ph
  · have := size_pos n
    simp [entryWeight]
    omega
  · simp [entryWeight]

theorem stackWeight_append (s1 s2 : List StackEntry) :
    stackWeight (s1 ++ s2) = stackWeight s1 + stackWeight s2 := by
  induction s1 with
  | nil => simp [stackWeight]
  | cons e s ih => simp [stackWeight, ih]; omega

theorem stackWeight_map_pre (cs : List Node) (pl : Bool) :
    stackWeight (cs.map fun c => ⟨c, pl, Phase.pre⟩) = 2 * Node.sizeList cs := by
  induction cs with
  | nil => rfl
  | cons c cs ih =>
    simp only [List.map_cons, stackWeight, sizeList_cons, ih, entryWeight]
    omega

theorem stackWeight_eq_zero {s : List StackEntry} (h : stackWeight s = 0) :
    s = [] := by
  cases s with
  | nil => rfl
  | cons e rest =>
    have := entryWeight_pos e
    simp [stackWeight] at h
    omega

theorem stepOnce_weight (opts : ComrakOptions) (st : XmlFormatter)
    (e : StackEntry) : stackWeight (stepOnce opts st e).2 < entryWeight e := by
  rcases e with ⟨n, pl, ph⟩
  cases ph
  · rcases n with ⟨v, a, b, c, d, cs⟩
    cases pl with
    | true =>
      simp only [stepOnce]
      simp [stackWeight_map_pre, entryWeight, size_mk, Node.children]
    | false =>
      simp only [stepOnce]
      simp [stackWeight_append, stackWeight_map_pre, entryWeight, size_mk,
        Node.children, stackWeight]
      omega
  · simp [stepOnce, stackWeight, entryWeight]

/-! The fuelled loop runs the same with any sufficient fuel. -/

theorem runFuel_nil (opts : ComrakOptions) (f : Nat) (st : XmlFormatter) :
    runFuel opts f st [] = st := by
  cases f <;> rfl

theorem runFuel_mono (opts : ComrakOptions) :
    ∀ f g (st : XmlFormatter) (s : List StackEntry), stackWeight s ≤ f →
      stackWeight s ≤ g → runFuel opts f st s = runFuel opts g st s := by
  intro f
  induction f with
  | zero =>
    intro g st s hf hg
    have hs : s = [] := stackWeight_eq_zero (Nat.le_zero.mp hf)
    subst hs
    rw [runFuel_nil, runFuel_nil]
  | succ f ih =>
    intro g st s hf hg
    cases s with
    | nil => rw [runFuel_nil, runFuel_nil]
    | cons e rest =>
      have hpos : 0 < stackWeight (e :: rest) := by
        have := entryWeight_pos e
        simp [stackWeight]
        omega
      obtain ⟨g', rfl⟩ : ∃ g', g = g' + 1 := ⟨g - 1, by omega⟩
      have h1 : runFuel opts (f + 1) st (e :: rest) =
          runFuel opts f (stepOnce opts st e).1 ((stepOnce opts st e).2 ++ rest) := rfl
      have h2 : runFuel opts (g' + 1) st (e :: rest) =
          runFuel opts g' (stepOnce opts st e).1 ((stepOnce opts st e).2 ++ rest) := rfl
      have hcons : stackWeight (e :: rest) = entryWeight e + stackWeight rest := rfl
      have hw : stackWeight ((stepOnce opts st e).2 ++ rest) <
          stackWeight (e :: rest) := by
        have := stepOnce_weight opts st e
        rw [stackWeight_append]
        omega
      rw [h1, h2]
      exact ih g' _ _ (by omega) (by omega)

theorem runStack_nil (opts : ComrakOptions) (st : XmlFormatter) :
    runStack opts st [] = st := rfl

theorem runStack_cons (opts : ComrakOptions) (st : XmlFormatter) (e : StackEntry)
    (rest : List StackEntry) :
    runStack opts st (e :: rest) =
      runStack opts (stepOnce opts st e).1 ((stepOnce opts st e).2 ++ rest) := by
  unfold runStack
  obtain ⟨f, hf⟩ : ∃ f, stackWeight (e :: rest) = f + 1 := by
    have := entryWeight_pos e
    exact ⟨stackWeight (e :: rest) - 1, by simp [stackWeight]; omega⟩
  rw [hf]
  have h1 : runFuel opts (f + 1) st (e :: rest) =
      runFuel opts f (stepOnce opts st e).1 ((stepOnce opts st e).2 ++ rest) := rfl
  rw [h1]
  apply runFuel_mono
  · have := stepOnce_weight opts st e
    rw [stackWeight_append]
    simp [stackWeight] at hf ⊢
    omega
  · exact le_refl _

theorem runStack_append (opts : ComrakOptions) (s1 s2 : List StackEntry)
    (st : XmlFormatter) :
    runStack opts st (s1 ++ s2) = runStack opts (runStack opts st s1) s2 := by
  have main : ∀ w s1, stackWeight s1 ≤ w → ∀ (st : XmlFormatter),
      runStack opts st (s1 ++ s2) = runStack opts (runStack opts st s1) s2 := by
    intro w
    induction w using Nat.strong_induction_on with
    | _ w ih =>
      intro s1 hw st
      cases s1 with
      | nil => rw [List.nil_append, runStack_nil]
      | cons e rest =>
        rw [List.cons_append, runStack_cons, runStack_cons, ← List.append_assoc]
        have hlt : stackWeight ((stepOnce opts st e).2 ++ rest) < w := by
          have := stepOnce_weight opts st e
          rw [stackWeight_append]
          simp [stackWeight] at hw
          omega
        exact ih _ hlt _ le_rfl _
  exact main (stackWeight s1) s1 le_rfl st

/-! Characterizations of the loop body. -/

theorem stepOnce_pre_notplain (opts : ComrakOptions) (st : XmlFormatter)
    (n : Node) :
    stepOnce opts st ⟨n, false, Phase.pre⟩ =
      ((format_node opts st n true).1,
        n.children.map (fun c => ⟨c, false, Phase.pre⟩) ++
          [⟨n, false, Phase.post⟩]) := by
  simp [stepOnce, format_node_snd]

theorem stepOnce_post (opts : ComrakOptions) (st : XmlFormatter) (n : Node)
    (pl : Bool) :
    stepOnce opts st ⟨n, pl, Phase.post⟩ = ((format_node opts st n false).1, []) :=
  rfl

theorem stepOnce_plain_stack (opts : ComrakOptions) (st : XmlFormatter)
    (n : Node) :
    (stepOnce opts st ⟨n, true, Phase.pre⟩).2 =
      n.children.map fun c => ⟨c, true, Phase.pre⟩ := by
  simp [stepOnce]

theorem stepOnce_plain_indent (opts : ComrakOptions) (st : XmlFormatter)
    (n : Node) :
    (stepOnce opts st ⟨n, true, Phase.pre⟩).1.indent = st.indent := by
  rcases n with ⟨v, a, b, c, d, cs⟩
  cases v <;> simp [stepOnce, Node.value]

theorem stepOnce_plain_plugins (opts : ComrakOptions) (st : XmlFormatter)
    (n : Node) :
    (stepOnce opts st ⟨n, true, Phase.pre⟩).1.plugins = st.plugins := by
  rcases n with ⟨v, a, b, c, d, cs⟩
  cases v <;> simp [stepOnce, Node.value]

theorem stepOnce_plain_output_mono (opts : ComrakOptions) (st : XmlFormatter)
    (n : Node) :
    ∃ d, (stepOnce opts st ⟨n, true, Phase.pre⟩).1.output = st.output ++ d := by
  rcases n with ⟨v, a, b, c, d, cs⟩
  cases v <;> simp [stepOnce, Node.value]

/-! The indent-debt invariant: starting from indent 0, the indent always equals
twice the number of still-deferred closing tags of container nodes on the
stack. -/

theorem stackDebt_append (s1 s2 : List StackEntry) :
    stackDebt (s1 ++ s2) = stackDebt s1 + stackDebt s2 := by
  induction s1 with
  | nil => simp [stackDebt]
  | cons e s ih => simp [stackDebt, ih]; omega

theorem stackDebt_map_pre (cs : List Node) (pl : Bool) :
    stackDebt (cs.map fun c => ⟨c, pl, Phase.pre⟩) = 0 := by
  induction cs with
  | nil => rfl
  | cons c cs ih => simp [stackDebt, entryDebt, ih]

theorem entryDebt_post_empty (n : Node) (pl : Bool) (h : n.children = []) :
    entryDebt ⟨n, pl, Phase.post⟩ = 0 := by
  simp [entryDebt, h]

theorem entryDebt_post_cons (n : Node) (pl : Bool) (h : n.children ≠ []) :
    entryDebt ⟨n, pl, Phase.post⟩ = 1 := by
  simp [entryDebt, h]

theorem stepOnce_debt (opts : ComrakOptions) (st : XmlFormatter) (e : StackEntry)
    (rest : List StackEntry) (i0 : Nat)
    (h : st.indent = i0 + 2 * stackDebt (e :: rest)) :
    (stepOnce opts st e).1.indent =
      i0 + 2 * stackDebt ((stepOnce opts st e).2 ++ rest) := by
  rcases e with ⟨n, pl, ph⟩
  cases ph
  · cases pl with
    | true =>
      rw [stepOnce_plain_indent, stepOnce_plain_stack, stackDebt_append,
        stackDebt_map_pre]
      have hd : stackDebt (⟨n, true, Phase.pre⟩ :: rest) = stackDebt rest := by
        simp [stackDebt, entryDebt]
      rw [hd] at h
      omega
    | false =>
      rw [stepOnce_pre_notplain]
      have hpre : stackDebt (⟨n, false, Phase.pre⟩ :: rest) = stackDebt rest := by
        simp [stackDebt, entryDebt]
      rw [hpre] at h
      by_cases hc : n.children = []
      · have hstack :
            (n.children.map (fun c => (⟨c, false, Phase.pre⟩ : StackEntry)) ++
              [⟨n, false, Phase.post⟩]) ++ rest =
            ⟨n, false, Phase.post⟩ :: rest := by
          rw [hc]
          rfl
        rw [hstack, format_node_enter_indent_empty opts st n hc]
        have hdebt : stackDebt (⟨n, false, Phase.post⟩ :: rest) = stackDebt rest := by
          simp [stackDebt, entryDebt, hc]
        rw [hdebt]
        exact h
      · rw [format_node_enter_indent_cons opts st n hc]
        have hdebt :
            stackDebt
              ((n.children.map (fun c => (⟨c, false, Phase.pre⟩ : StackEntry)) ++
                [⟨n, false, Phase.post⟩]) ++ rest) = 1 + stackDebt rest := by
          rw [stackDebt_append, stackDebt_append, stackDebt_map_pre]
          simp [stackDebt, entryDebt, hc]
        rw [hdebt]
        omega
  · rw [stepOnce_post]
    have hd : stackDebt (⟨n, pl, Phase.post⟩ :: rest) =
        entryDebt ⟨n, pl, Phase.post⟩ + stackDebt rest := rfl
    by_cases hc : n.children = []
    · rw [format_node_leave_empty opts st n hc]
      rw [hd, entryDebt_post_empty n pl hc] at h
      simpa using h
    · rw [format_node_leave opts st n hc]
      rw [hd, entryDebt_post_cons n pl hc] at h
      simp only [List.nil_append]
      omega

theorem runStack_indent (opts : ComrakOptions) :
    ∀ w (s : List StackEntry), stackWeight s ≤ w → ∀ (st : XmlFormatter) i0,
      st.indent = i0 + 2 * stackDebt s → (runStack opts st s).indent = i0 := by
  intro w
  induction w using Nat.strong_induction_on with
  | _ w ih =>
    intro s hw st i0 hst
    cases s with
    | nil =>
      rw [runStack_nil]
      simp [stackDebt] at hst
      omega
    | cons e rest =>
      rw [runStack_cons]
      have hlt : stackWeight ((stepOnce opts st e).2 ++ rest) < w := by
        have h1 := stepOnce_weight opts st e
        have hcons : stackWeight (e :: rest) = entryWeight e + stackWeight rest := rfl
        rw [stackWeight_append]
        omega
      exact ih _ hlt _ le_rfl _ i0 (stepOnce_debt opts st e rest i0 hst)

theorem format_indent (opts : ComrakOptions) (st : XmlFormatter) (n : Node)
    (pl : Bool) : (XmlFormatter.format opts st n pl).indent = st.indent := by
  unfold XmlFormatter.format runStack
  rw [show runFuel opts (stackWeight [⟨n, pl, Phase.pre⟩]) st [⟨n, pl, Phase.pre⟩] =
    runStack opts st [⟨n, pl, Phase.pre⟩] from rfl]
  exact runStack_indent opts (stackWeight [⟨n, pl, Phase.pre⟩]) _ le_rfl st
    st.indent (by simp [stackDebt, entryDebt])

/-! Output monotonicity: the traversal only appends to the output. -/

theorem stepOnce_output_mono (opts : ComrakOptions) (st : XmlFormatter)
    (e : StackEntry) : ∃ d, (stepOnce opts st e).1.output = st.output ++ d := by
  rcases e with ⟨n, pl, ph⟩
  cases ph
  · cases pl with
    | true => exact stepOnce_plain_output_mono opts st n
    | false =>
      rw [stepOnce_pre_notplain]
      exact format_node_output_mono opts st n true
  · rw [stepOnce_post]
    exact format_node_output_mono opts st n false

theorem runStack_output_mono (opts : ComrakOptions) :
    ∀ w (s : List StackEntry), stackWeight s ≤ w → ∀ (st : XmlFormatter),
      ∃ d, (runStack opts st s).output = st.output ++ d := by
  intro w
  induction w using Nat.strong_induction_on with
  | _ w ih =>
    intro s hw st
    cases s with
    | nil => exact ⟨[], by simp [runStack_nil]⟩
    | cons e rest =>
      rw [runStack_cons]
      have hlt : stackWeight ((stepOnce opts st e).2 ++ rest) < w := by
        have h1 := stepOnce_weight opts st e
        have hcons : stackWeight (e :: rest) = entryWeight e + stackWeight rest := rfl
        rw [stackWeight_append]
        omega
      obtain ⟨d1, hd1⟩ := ih _ hlt _ le_rfl (stepOnce opts st e).1
      obtain ⟨d0, hd0⟩ := stepOnce_output_mono opts st e
      exact ⟨d0 ++ d1, by rw [hd1, hd0, List.append_assoc]⟩

/-! Plugin erasure: the rendering never reads the plugins registry. -/

theorem stepOnce_erase (opts : ComrakOptions) (st1 st2 : XmlFormatter)
    (e : StackEntry) (hi : st1.indent = st2.indent) (ho : st1.output = st2.output) :
    (stepOnce opts st1 e).1.indent = (stepOnce opts st2 e).1.indent ∧
    (stepOnce opts st1 e).1.output = (stepOnce opts st2 e).1.output ∧
    (stepOnce opts st1 e).2 = (stepOnce opts st2 e).2 := by
  rcases st1 with ⟨i1, o1, p1⟩
  rcases st2 with ⟨i2, o2, p2⟩
  simp only [XmlFormatter.indent, XmlFormatter.output] at hi ho
  subst hi
  subst ho
  rcases e with ⟨n, pl, ph⟩
  cases ph
  · cases pl with
    | true =>
      rcases n with ⟨v, a, b, c, d, cs⟩
      cases v <;> simp [stepOnce, Node.value]
    | false =>
      rw [stepOnce_pre_notplain, stepOnce_pre_notplain,
        format_node_factor opts i1 o1 p1 p2 n true,
        format_node_factor opts i1 o1 p2 p2 n true]
      simp
  · rw [stepOnce_post, stepOnce_post,
      format_node_factor opts i1 o1 p1 p2 n false,
      format_node_factor opts i1 o1 p2 p2 n false]
    simp

theorem runStack_erase (opts : ComrakOptions) :
    ∀ w (s : List StackEntry), stackWeight s ≤ w → ∀ (st1 st2 : XmlFormatter),
      st1.indent = st2.indent → st1.output = st2.output →
      (runStack opts st1 s).output = (runStack opts st2 s).output := by
  intro w
  induction w using Nat.strong_induction_on with
  | _ w ih =>
    intro s hw st1 st2 hi ho
    cases s with
    | nil => rw [runStack_nil, runStack_nil]; exact ho
    | cons e rest =>
      rw [runStack_cons, runStack_cons]
      obtain ⟨hi', ho', hs'⟩ := stepOnce_erase opts st1 st2 e hi ho
      have hlt : stackWeight ((stepOnce opts st1 e).2 ++ rest) < w := by
        have h1 := stepOnce_weight opts st1 e
        have hcons : stackWeight (e :: rest) = entryWeight e + stackWeight rest := rfl
        rw [stackWeight_append]
        omega
      rw [hs'] at hlt ⊢
      exact ih _ hlt _ le_rfl _ _ hi' ho'

/-! Small-step reachability over the traversal loop, used to state the
invariants that hold throughout a call to format. -/

theorem reach_debt (opts : ComrakOptions) {c0 c : XmlFormatter × List StackEntry}
    (h : Reach opts c0 c) (h0 : c0.1.indent = 2 * stackDebt c0.2) :
    c.1.indent = 2 * stackDebt c.2 := by
  induction h with
  | refl => exact h0
  | tail hr hstep ih =>
    obtain ⟨st, e, rest, hb, hc⟩ := hstep
    rw [hb] at ih
    rw [hc]
    have hd := stepOnce_debt opts st e rest 0 (by simpa using ih)
    simpa using hd

theorem reach_plain_false (opts : ComrakOptions) {st0 : XmlFormatter}
    {root : Node} {c : XmlFormatter × List StackEntry}
    (h : Reach opts (st0, [⟨root, false, Phase.pre⟩]) c) :
    ∀ e ∈ c.2, e.plain = false := by
  induction h with
  | refl =>
    intro e he
    simp only [List.mem_singleton] at he
    rw [he]
  | tail hr hstep ih =>
    obtain ⟨st, e, rest, hb, hc⟩ := hstep
    rw [hb] at ih
    rw [hc]
    intro x hx
    rcases List.mem_append.mp hx with hx | hx
    · have hpl : e.plain = false := ih e (by simp)
      rcases e with ⟨n, pl, ph⟩
      simp only [StackEntry.plain] at hpl
      subst hpl
      cases ph
      · rw [stepOnce_pre_notplain] at hx
        rcases List.mem_append.mp hx with hx | hx
        · obtain ⟨c', hc', rfl⟩ := List.mem_map.mp hx
          rfl
        · simp only [List.mem_singleton] at hx
          rw [hx]
      · rw [stepOnce_post] at hx
        simp at hx
    · exact ih x (List.mem_cons_of_mem _ hx)

/-! Decomposition of the traversal of one subtree. -/

theorem format_decomp (opts : ComrakOptions) (st : XmlFormatter) (n : Node) :
    XmlFormatter.format opts st n false =
      (format_node opts
        (runStack opts (format_node opts st n true).1
          (n.children.map fun c => ⟨c, false, Phase.pre⟩)) n false).1 := by
  unfold XmlFormatter.format
  rw [runStack_cons, stepOnce_pre_notplain, List.append_nil, runStack_append,
    runStack_cons, stepOnce_post]
  simp [runStack_nil]

theorem format_node_enter_output_shape (opts : ComrakOptions) (st : XmlFormatter)
    (n : Node) :
    ∃ r, (format_node opts st n true).1.output =
      st.output ++ List.replicate st.indent 32 ++ bytes "<" ++
        bytes n.value.xml_node_name ++ r := by
  rcases n with ⟨v, a, b, c, d, cs⟩
  cases v <;>
    exact ⟨_, by
      simp [format_node, Node.value, Node.startLine, Node.children,
        List.append_assoc]
      try rfl⟩

theorem format_container_shape (opts : ComrakOptions) (st : XmlFormatter)
    (n : Node) (hc : n.children ≠ []) :
    ∃ mid, (XmlFormatter.format opts st n false).output =
      st.output ++ List.replicate st.indent 32 ++ bytes "<" ++
        bytes n.value.xml_node_name ++ mid ++ List.replicate st.indent 32 ++
        bytes "</" ++ bytes n.value.xml_node_name ++ bytes ">\n" := by
  rw [format_decomp]
  have hi1 : (format_node opts st n true).1.indent = st.indent + 2 :=
    format_node_enter_indent_cons opts st n hc
  have hi2 : (runStack opts (format_node opts st n true).1
      (n.children.map fun c => ⟨c, false, Phase.pre⟩)).indent =
      (format_node opts st n true).1.indent := by
    apply runStack_indent opts (stackWeight _) _ le_rfl _ _
    rw [stackDebt_map_pre]
    omega
  obtain ⟨d, hd⟩ := runStack_output_mono opts
    (stackWeight (n.children.map fun c => ⟨c, false, Phase.pre⟩)) _ le_rfl
    (format_node opts st n true).1
  obtain ⟨r, hr⟩ := format_node_enter_output_shape opts st n
  rw [format_node_leave opts _ n hc]
  refine ⟨r ++ d, ?_⟩
  simp only [XmlFormatter.output, XmlFormatter.indent]
  rw [hd, hr, hi2, hi1]
  have hsub : st.indent + 2 - 2 = st.indent := by omega
  rw [hsub]
  simp [List.append_assoc]

/-- Counterexample to claim C2 as stated: for a Text node that structurally
has a child, the leaving (Post) visit does write output — it emits the
generic container closing tag line — so a literal node with children does go
through the container close-tag path. -/
theorem claim_C2_counterexample :
    (format_node ⟨⟨false⟩⟩ ⟨0, [], ⟨none⟩⟩
      (.mk (.text (bytes "Hi")) 0 0 0 0 [.mk .softBreak 0 0 0 0 []])
      false).1.output = bytes "</text>\n" ∧
    bytes "</text>\n" ≠ ([] : List Nat) := by
  constructor
  · decide
  · decide

/-- Amended claim C2: for every Text, Code, HtmlBlock, HtmlInline or CodeBlock
node with no children, the whole subtree rendering equals the entering visit
alone, the leaving visit writes nothing, the entering visit emits the single
line indent ++ <tag ... xml:space="preserve">ESCAPED</tag> with the closing
tag inline, and the indent is unchanged. -/
theorem claim_C2 (opts : ComrakOptions) (st : XmlFormatter) (n : Node)
    (l : List Nat) (hlit : literalOf n.value = some l) (hc : n.children = []) :
    XmlFormatter.format opts st n false = (format_node opts st n true).1 ∧
    (∀ st', format_node opts st' n false = (st', false)) ∧
    (∃ attrs, (format_node opts st n true).1.output =
      st.output ++ List.replicate st.indent 32 ++ bytes "<" ++
        bytes n.value.xml_node_name ++ attrs ++
        bytes " xml:space=\"preserve\">" ++ escape l ++ bytes "</" ++
        bytes n.value.xml_node_name ++ bytes ">\n") ∧
    (format_node opts st n true).1.indent = st.indent := by
  refine ⟨?_, fun st' => format_node_leave_empty opts st' n hc, ?_,
    format_node_enter_indent_empty opts st n hc⟩
  · rw [format_decomp, hc]
    simp only [List.map_nil, runStack_nil]
    rw [format_node_leave_empty opts _ n hc]
  · rcases n with ⟨v, a, b, c, d, cs⟩
    simp only [Node.children] at hc
    subst hc
    cases v <;>
      simp only [literalOf, Node.value, Option.some.injEq, reduceCtorEq] at hlit
    case codeBlock info lit =>
      subst hlit
      refine ⟨(if opts.render.sourcepos && (a != 0) then
          sourcepos_attr (Node.mk (NodeValue.codeBlock info lit) a b c d []) else []) ++
        (if info = [] then [] else bytes " info=\"" ++ info ++ bytes "\""), ?_⟩
      simp [format_node, Node.value, Node.startLine, Node.children,
        NodeValue.xml_node_name, List.append_assoc]
    all_goals subst hlit
    all_goals
      exact ⟨_, by
        simp [format_node, Node.value, Node.startLine, Node.children,
          NodeValue.xml_node_name, List.append_assoc]
        try rfl⟩

/-- Witness for claim_C2 at a concrete childless Text node. -/
theorem claim_C2_witness :
    XmlFormatter.format ⟨⟨false⟩⟩ ⟨0, [], ⟨none⟩⟩
        (.mk (.text (bytes "Hi")) 0 0 0 0 []) false =
      (format_node ⟨⟨false⟩⟩ ⟨0, [], ⟨none⟩⟩
        (.mk (.text (bytes "Hi")) 0 0 0 0 []) true).1 :=
  (claim_C2 ⟨⟨false⟩⟩ ⟨0, [], ⟨none⟩⟩ (.mk (.text (bytes "Hi")) 0 0 0 0 [])
    (bytes "Hi") rfl rfl).1

/-- Indentation invariants of the traversal: starting from indent 0, the
indent is a non-negative even number at every reachable loop state; entering
a node with a child adds exactly 2 and entering a childless node (and leaving
it) changes nothing; leaving a node with a child at any reachable state
subtracts exactly 2; a complete subtree traversal restores the indent; and a
container subtree renders as its opening tag line, a body, and the matching
closing tag line at the same indentation. -/
theorem claim_C3 :
    (∀ (opts : ComrakOptions) (st0 : XmlFormatter) (root : Node) (pl : Bool)
        (st : XmlFormatter) (stack : List StackEntry), st0.indent = 0 →
        Reach opts (st0, [⟨root, pl, Phase.pre⟩]) (st, stack) →
        ∃ k, st.indent = 2 * k) ∧
    (∀ (opts : ComrakOptions) (st : XmlFormatter) (n : Node), n.children ≠ [] →
        (format_node opts st n true).1.indent = st.indent + 2) ∧
    (∀ (opts : ComrakOptions) (st : XmlFormatter) (n : Node), n.children = [] →
        (format_node opts st n true).1.indent = st.indent ∧
        (format_node opts st n false).1.indent = st.indent) ∧
    (∀ (opts : ComrakOptions) (st0 : XmlFormatter) (root : Node) (pl : Bool)
        (st : XmlFormatter) (n : Node) (b : Bool) (rest : List StackEntry),
        st0.indent = 0 →
        Reach opts (st0, [⟨root, pl, Phase.pre⟩]) (st, ⟨n, b, Phase.post⟩ :: rest) →
        n.children ≠ [] →
        (format_node opts st n false).1.indent + 2 = st.indent) ∧
    (∀ (opts : ComrakOptions) (st : XmlFormatter) (n : Node) (pl : Bool),
        (XmlFormatter.format opts st n pl).indent = st.indent) ∧
    (∀ (opts : ComrakOptions) (st : XmlFormatter) (n : Node), n.children ≠ [] →
        ∃ mid, (XmlFormatter.format opts st n false).output =
          st.output ++ List.replicate st.indent 32 ++ bytes "<" ++
            bytes n.value.xml_node_name ++ mid ++ List.replicate st.indent 32 ++
            bytes "</" ++ bytes n.value.xml_node_name ++ bytes ">\n") := by
  refine ⟨?_, ?_, ?_, ?_, format_indent, format_container_shape⟩
  · intro opts st0 root pl st stack h0 hr
    exact ⟨stackDebt stack,
      reach_debt opts hr (by simp [stackDebt, entryDebt, h0])⟩
  · intro opts st n hc
    exact format_node_enter_indent_cons opts st n hc
  · intro opts st n hc
    refine ⟨format_node_enter_indent_empty opts st n hc, ?_⟩
    rw [format_node_leave_empty opts st n hc]
  · intro opts st0 root pl st n b rest h0 hr hc
    have hd := reach_debt opts hr (by simp [stackDebt, entryDebt, h0])
    have hdebt : stackDebt (⟨n, b, Phase.post⟩ :: rest) =
        1 + stackDebt rest := by
      simp [stackDebt, entryDebt, hc]
    rw [hdebt] at hd
    rw [format_node_leave opts st n hc]
    simp only [XmlFormatter.indent] at hd ⊢
    omega

/-- Witness for claim_C3: the invariants instantiated at the initial state of
a concrete two-node tree (paragraph containing a thematic break). -/
theorem claim_C3_witness :
    (∃ k, (⟨0, [], ⟨none⟩⟩ : XmlFormatter).indent = 2 * k) ∧
    (format_node ⟨⟨false⟩⟩ ⟨0, [], ⟨none⟩⟩
      (.mk .paragraph 0 0 0 0 [.mk .thematicBreak 0 0 0 0 []]) true).1.indent =
      (⟨0, [], ⟨none⟩⟩ : XmlFormatter).indent + 2 ∧
    (format_node ⟨⟨false⟩⟩ ⟨0, [], ⟨none⟩⟩
      (.mk .thematicBreak 0 0 0 0 []) true).1.indent =
      (⟨0, [], ⟨none⟩⟩ : XmlFormatter).indent ∧
    (∃ mid, (XmlFormatter.format ⟨⟨false⟩⟩ ⟨0, [], ⟨none⟩⟩
      (.mk .paragraph 0 0 0 0 [.mk .thematicBreak 0 0 0 0 []]) false).output =
      ([] : List Nat) ++ List.replicate 0 32 ++ bytes "<" ++
        bytes (NodeValue.paragraph).xml_node_name ++ mid ++ List.replicate 0 32 ++
        bytes "</" ++ bytes (NodeValue.paragraph).xml_node_name ++ bytes ">\n") := by
  refine ⟨?_, ?_, ?_, ?_⟩
  · exact claim_C3.1 ⟨⟨false⟩⟩ ⟨0, [], ⟨none⟩⟩ (.mk .paragraph 0 0 0 0 []) false
      ⟨0, [], ⟨none⟩⟩ [⟨.mk .paragraph 0 0 0 0 [], false, Phase.pre⟩] rfl
      Relation.ReflTransGen.refl
  · exact claim_C3.2.1 ⟨⟨false⟩⟩ ⟨0, [], ⟨none⟩⟩ _ (by simp [Node.children])
  · exact (claim_C3.2.2.1 ⟨⟨false⟩⟩ ⟨0, [], ⟨none⟩⟩
      (.mk .thematicBreak 0 0 0 0 []) rfl).1
  · exact claim_C3.2.2.2.2.2 ⟨⟨false⟩⟩ ⟨0, [], ⟨none⟩⟩ _ (by simp [Node.children])

/-- Evaluation of format_node at a CodeBlock whose info string contains a
double quote: the info attribute value is written raw, not XML-escaped, so
the output contains info="a"b" with a bare quote inside the attribute
(the specification requires info="a&quot;b"). -/
theorem claim_C4 :
    (format_node ⟨⟨false⟩⟩ ⟨0, [], ⟨none⟩⟩
      (.mk (.codeBlock (bytes "a\"b") (bytes "x")) 0 0 0 0 []) true).1.output =
      bytes "<code_block info=\"a\"b\" xml:space=\"preserve\">x</code_block>\n" := by
  decide

/-- Attribute omission: a CodeBlock with empty info string emits no info
attribute at all (its opening line goes straight from the tag name and the
optional sourcepos attribute to xml:space="preserve"), and a node whose start
line is zero renders identically whatever the options, in particular no
sourcepos attribute is emitted even when the sourcepos option is enabled. -/
theorem claim_C5 :
    (∀ (opts : ComrakOptions) (st : XmlFormatter) (lit : List Nat)
        (sl sc el ec : Nat) (cs : List Node),
      (format_node opts st (.mk (.codeBlock [] lit) sl sc el ec cs)
          true).1.output =
        st.output ++ List.replicate st.indent 32 ++ bytes "<" ++
          bytes "code_block" ++
          (if opts.render.sourcepos && (sl != 0) then
            sourcepos_attr (.mk (.codeBlock [] lit) sl sc el ec cs) else []) ++
          bytes " xml:space=\"preserve\">" ++ escape lit ++ bytes "</" ++
          bytes "code_block" ++ bytes ">\n") ∧
    (∀ (o1 o2 : ComrakOptions) (st : XmlFormatter) (n : Node) (e : Bool),
      n.startLine = 0 → format_node o1 st n e = format_node o2 st n e) := by
  constructor
  · intro opts st lit sl sc el ec cs
    simp [format_node, Node.value, Node.startLine, Node.children,
      NodeValue.xml_node_name, List.append_assoc]
  · intro o1 o2 st n e h
    rcases n with ⟨v, sl, sc, el, ec, cs⟩
    simp only [Node.startLine] at h
    subst h
    cases e with
    | false => rfl
    | true => simp [format_node, Node.startLine]

/-- Witness for claim_C5: option independence at a concrete zero-sourcepos
paragraph node, with the sourcepos option enabled on one side and disabled on
the other. -/
theorem claim_C5_witness :
    format_node ⟨⟨true⟩⟩ ⟨0, [], ⟨none⟩⟩ (.mk .paragraph 0 0 0 0 []) true =
      format_node ⟨⟨false⟩⟩ ⟨0, [], ⟨none⟩⟩ (.mk .paragraph 0 0 0 0 []) true :=
  claim_C5.2 ⟨⟨true⟩⟩ ⟨⟨false⟩⟩ ⟨0, [], ⟨none⟩⟩ (.mk .paragraph 0 0 0 0 []) true rfl

set_option maxRecDepth 10000 in
/-- Scenario A: the document Document[Paragraph[Text "Hi"]] with sourcepos
disabled serializes to exactly the prolog followed by the indented document,
paragraph and text lines and their closing tags. -/
theorem claim_C6 :
    format_document
      (.mk .document 0 0 0 0
        [.mk .paragraph 0 0 0 0 [.mk (.text (bytes "Hi")) 0 0 0 0 []]])
      ⟨⟨false⟩⟩ =
    bytes "<?xml version=\"1.0\" encoding=\"UTF-8\"?>\n<!DOCTYPE document SYSTEM \"CommonMark.dtd\">\n<document xmlns=\"http://commonmark.org/xml/1.0\">\n  <paragraph>\n    <text xml:space=\"preserve\">Hi</text>\n  </paragraph>\n</document>\n" := by
  decide

/-- Plain-mode Pre visit: Text, Code and HtmlInline write only their escaped
literal, LineBreak and SoftBreak write exactly one space byte, every other
variant writes nothing; the children are pushed as Pre entries that keep the
plain flag set, and no Post entry is pushed. -/
theorem claim_C7 (opts : ComrakOptions) (st : XmlFormatter) (n : Node) :
    (stepOnce opts st ⟨n, true, Phase.pre⟩).2 =
      n.children.map (fun c => ⟨c, true, Phase.pre⟩) ∧
    (∀ e ∈ (stepOnce opts st ⟨n, true, Phase.pre⟩).2,
      e.plain = true ∧ e.phase = Phase.pre) ∧
    (∀ l, n.value = .text l ∨ n.value = .code l ∨ n.value = .htmlInline l →
      (stepOnce opts st ⟨n, true, Phase.pre⟩).1 =
        { st with output := st.output ++ escape l }) ∧
    ((n.value = .lineBreak ∨ n.value = .softBreak) →
      (stepOnce opts st ⟨n, true, Phase.pre⟩).1 =
        { st with output := st.output ++ bytes " " }) ∧
    (plainSilent n.value = true → (stepOnce opts st ⟨n, true, Phase.pre⟩).1 = st) := by
  refine ⟨stepOnce_plain_stack opts st n, ?_, ?_, ?_, ?_⟩
  · intro e he
    rw [stepOnce_plain_stack] at he
    obtain ⟨c, hc, rfl⟩ := List.mem_map.mp he
    exact ⟨rfl, rfl⟩
  · intro l hl
    rcases n with ⟨v, a, b, c, d, cs⟩
    simp only [Node.value] at hl
    rcases hl with rfl | rfl | rfl <;> simp [stepOnce, Node.value]
  · intro hl
    rcases n with ⟨v, a, b, c, d, cs⟩
    simp only [Node.value] at hl
    rcases hl with rfl | rfl <;> simp [stepOnce, Node.value]
  · intro hs
    rcases n with ⟨v, a, b, c, d, cs⟩
    simp only [Node.value] at hs
    cases v <;> simp [plainSilent] at hs <;> simp [stepOnce, Node.value]

/-- Witness for claim_C7 at a concrete Text node visited in plain mode. -/
theorem claim_C7_witness :
    (stepOnce ⟨⟨false⟩⟩ ⟨0, [], ⟨none⟩⟩
      ⟨.mk (.text (bytes "Hi")) 0 0 0 0 [], true, Phase.pre⟩).1 =
      { (⟨0, [], ⟨none⟩⟩ : XmlFormatter) with
        output := ([] : List Nat) ++ escape (bytes "Hi") } :=
  (claim_C7 ⟨⟨false⟩⟩ ⟨0, [], ⟨none⟩⟩ _).2.2.1 (bytes "Hi") (Or.inl rfl)

/-- The node renderer never switches on plain mode: format_node always
returns false as the new plain flag, and consequently every stack entry of a
traversal started with plain = false carries plain = false at every
reachable loop state. -/
theorem claim_C8 :
    (∀ (opts : ComrakOptions) (st : XmlFormatter) (n : Node) (e : Bool),
      (format_node opts st n e).2 = false) ∧
    (∀ (opts : ComrakOptions) (st0 st : XmlFormatter) (root : Node)
        (stack : List StackEntry),
      Reach opts (st0, [⟨root, false, Phase.pre⟩]) (st, stack) →
      ∀ e ∈ stack, e.plain = false) :=
  ⟨format_node_snd, fun opts _ _ _ _ h => reach_plain_false opts h⟩

/-- Witness for claim_C8: the plain flags at the initial stack of a concrete
traversal. -/
theorem claim_C8_witness :
    ∀ e ∈ [(⟨.mk .document 0 0 0 0 [], false, Phase.pre⟩ : StackEntry)],
      e.plain = false :=
  claim_C8.2 ⟨⟨false⟩⟩ ⟨0, [], ⟨none⟩⟩ ⟨0, [], ⟨none⟩⟩ (.mk .document 0 0 0 0 [])
    [⟨.mk .document 0 0 0 0 [], false, Phase.pre⟩] Relation.ReflTransGen.refl

/-- The plugins registry never influences rendering: with any two registry
values the rendered document is byte-identical, and format_document is
format_document_with_plugins at the default registry. -/
theorem claim_C9 :
    (∀ (root : Node) (options : ComrakOptions) (p1 p2 : ComrakPlugins),
      format_document_with_plugins root options p1 =
        format_document_with_plugins root options p2) ∧
    (∀ (root : Node) (options : ComrakOptions),
      format_document root options =
        format_document_with_plugins root options ComrakPlugins.default) := by
  constructor
  · intro root options p1 p2
    unfold format_document_with_plugins XmlFormatter.format
    exact runStack_erase options (stackWeight _) _ le_rfl _ _ rfl rfl
  · intro root options
    rfl

end Comrak
